import Mathlib

/-!
Verification development for the `StringScanner` of `src/strscan.rs`.

The scanner walks a borrowed UTF-8 string by byte offsets, attempts
regular-expression matches against the remaining suffix, and caches the
captures of the most recent match attempt.

Embedding conventions:
* A Rust `&str` is modelled as `RStr`, the list of its characters, each
  carried as its byte encoding.  Byte offsets index the flattened byte
  sequence; Rust string slicing requires offsets on character boundaries
  inside the string and aborts the program otherwise, which the slicing
  functions below model by returning `none`.
* Operations that can abort (out-of-bounds or non-boundary slice, the
  `unreachable` branch of `scan`, `unwrap` of a `None`) return an outer
  `Option`, with `none` standing for the abort; the inner value is the
  Rust return value paired with the scanner state after the call.
* The `end` field of the Rust struct is assigned `string.len()` at
  construction and neither it nor `string` is ever written afterwards,
  so it is embedded as the derived value `Scanner.endPos`.
* The external regex capability (`regex::Regex::captures`) is out of the
  repository; it is modelled as an abstract function from the searched
  slice to an optional capture set.  `Regex.WF` states what the regex
  library guarantees on any match (group 0 present, with a valid byte
  range of the searched slice); `Regex.Anchored` states the contract the
  scanner's callers rely on: patterns express search-from-here
  semantics, so any reported match starts at offset 0 of the slice.
-/

abbrev Byte := Nat

/-- A Rust `&str`: the sequence of characters of a UTF-8 string, each as
its byte encoding.  Byte offsets index the flattened byte list. -/
abbrev RStr := List (List Byte)

/-- The flattened byte sequence of a string. -/
def RStr.bytes (s : RStr) : List Byte := s.flatten

/-- Rust `str::len`: the byte length of a string. -/
def RStr.len (s : RStr) : Nat := s.bytes.length

/-- Rust `&s[n..]`: the suffix of `s` from byte offset `n`; `none` when
`n` is past the end or not on a character boundary (Rust aborts). -/
def dropBytes : RStr → Nat → Option RStr
  | s, 0 => some s
  | [], _ + 1 => none
  | c :: cs, n + 1 =>
    if c.length ≤ n + 1 then dropBytes cs (n + 1 - c.length) else none

/-- Rust `&s[..n]`: the prefix of `s` of byte length `n`; `none` when `n`
is past the end or not on a character boundary (Rust aborts). -/
def takeBytes : RStr → Nat → Option RStr
  | _, 0 => some []
  | [], _ + 1 => none
  | c :: cs, n + 1 =>
    if c.length ≤ n + 1 then (takeBytes cs (n + 1 - c.length)).map (c :: ·) else none

/-- Rust `&s[a..b]`: `none` when `a > b`, an offset is past the end, or
an offset is not on a character boundary (Rust aborts). -/
def sliceBytes (s : RStr) (a b : Nat) : Option RStr :=
  if b < a then none else (dropBytes s a).bind fun t => takeBytes t (b - a)

/-- `regex::Captures`: the capture set of one match attempt over the
searched slice.  `groups` lists, per group index, the byte range of that
group within the searched slice (`none` for a non-participating group). -/
structure Captures where
  searched : RStr
  groups : List (Option (Nat × Nat))
deriving DecidableEq

/-- `Captures::pos(i)`: the byte range of group `i` within the searched
slice, `none` when the index is out of range or the group is absent. -/
def Captures.pos (c : Captures) (i : Nat) : Option (Nat × Nat) :=
  match c.groups.get? i with
  | some (some p) => some p
  | _ => none

/-- `Captures::at(i)`: the matched substring of group `i`. -/
def Captures.at (c : Captures) (i : Nat) : Option RStr :=
  match c.pos i with
  | some (a, b) => sliceBytes c.searched a b
  | none => none

/-- The external regex capability: from the searched slice to the capture
set of a match, or `none` for no match. -/
abbrev Regex := RStr → Option Captures

/-- What the regex library guarantees whenever it reports a match: the
captures are over the searched slice and group 0 carries a byte range
that is a valid slice of it. -/
def Regex.WF (re : Regex) : Prop :=
  ∀ s caps, re s = some caps →
    caps.searched = s ∧
      ∃ a b, Captures.pos caps 0 = some (a, b) ∧ (sliceBytes s a b).isSome = true

/-- The anchoring contract of the spec's external interface: patterns
express search-from-here semantics, so any reported match starts at
offset 0 of the searched slice. -/
def Regex.Anchored (re : Regex) : Prop :=
  ∀ s caps a b, re s = some caps → Captures.pos caps 0 = some (a, b) → a = 0

/-- The scanner: a borrowed string, the cursor byte offset, and the
cached captures of the most recent match attempt. -/
structure Scanner where
  string : RStr
  pos : Nat
  last_match : Option Captures
deriving DecidableEq

/-- `StringScanner::new`: position 0, no cached match. -/
def Scanner.new (s : RStr) : Scanner :=
  { string := s, pos := 0, last_match := none }

/-- The `end` field: `string.len()`, fixed at construction. -/
def Scanner.endPos (sc : Scanner) : Nat := RStr.len sc.string

/-- `StringScanner::is_eos`. -/
def Scanner.is_eos (sc : Scanner) : Bool := sc.pos == sc.endPos

/-- `StringScanner::get_pos`. -/
def Scanner.get_pos (sc : Scanner) : Nat := sc.pos

/-- `StringScanner::set_pos`: rejects positions beyond `end`, and returns
the success flag together with the state after the call. -/
def Scanner.set_pos (sc : Scanner) (p : Nat) : Bool × Scanner :=
  if sc.endPos < p then (false, sc) else (true, { sc with pos := p })

/-- `StringScanner::terminate`: jump to `end`. -/
def Scanner.terminate (sc : Scanner) : Scanner := { sc with pos := sc.endPos }

/-- `StringScanner::is_bol`: outer `none` models the abort when the
one-byte slice before the cursor is not on character boundaries. -/
def Scanner.is_bol (sc : Scanner) : Option Bool :=
  if sc.pos == 0 then some true
  else if sc.endPos < sc.pos then some false
  else
    match sliceBytes sc.string (sc.pos - 1) sc.pos with
    | some c => some (RStr.bytes c == [10])
    | none => none

/-- `StringScanner::rest`: the unconsumed suffix, `none` (inner) at
end-of-string; outer `none` models the abort on a non-boundary cursor. -/
def Scanner.rest (sc : Scanner) : Option (Option RStr) :=
  if sc.is_eos then some none
  else
    match dropBytes sc.string sc.pos with
    | some r => some (some r)
    | none => none

/-- `StringScanner::peek_bytes`: as in the source, the clipped end offset
is computed against `end`, and the already-offset `rest()` slice is then
indexed from `self.pos` to that offset. -/
def Scanner.peek_bytes (sc : Scanner) (len : Nat) : Option (Option RStr) :=
  if sc.is_eos then some none
  else
    let e := if sc.endPos < sc.pos + len then sc.endPos else sc.pos + len
    match sc.rest with
    | some (some r) =>
      match sliceBytes r sc.pos e with
      | some sl => some (some sl)
      | none => none
    | _ => none

/-- `StringScanner::peek_chars`: up to `len` full characters of the
remaining suffix (`slice_chars(0, len)` after clipping to the remaining
character count). -/
def Scanner.peek_chars (sc : Scanner) (len : Nat) : Option (Option RStr) :=
  if sc.is_eos then some none
  else
    match sc.rest with
    | some (some r) =>
      let l := if r.length < len then r.length else len
      some (some (r.take l))
    | _ => none

/-- `StringScanner::get_byte`: as in the source, the one-byte slice is
taken from the already-offset `rest()` slice at `self.pos`, then the
cursor advances by one. -/
def Scanner.get_byte (sc : Scanner) : Option (Option Byte × Scanner) :=
  if sc.is_eos then some (none, sc)
  else
    match sc.rest with
    | some (some r) =>
      match sliceBytes r sc.pos (sc.pos + 1) with
      | some bs =>
        match RStr.bytes bs with
        | b :: _ => some (some b, { sc with pos := sc.pos + 1 })
        | [] => none
      | none => none
    | _ => none

/-- `StringScanner::get_char`: the first character of the remaining
suffix (`slice_chars(0, 1)`), the cursor advancing by its byte length. -/
def Scanner.get_char (sc : Scanner) : Option (Option RStr × Scanner) :=
  if sc.is_eos then some (none, sc)
  else
    match dropBytes sc.string sc.pos with
    | some r =>
      if r.length < 1 then none
      else
        let chr := r.take 1
        some (some chr, { sc with pos := sc.pos + RStr.len chr })
    | none => none

/-- `StringScanner::scan`: match the pattern against the remaining
suffix; on a match, advance the cursor to the end offset of group 0 and
cache the captures; on no match, clear the cache.  Outer `none` models
the aborts (non-boundary slice, and the source's unreachable branch when
group 0 is absent). -/
def Scanner.scan (sc : Scanner) (re : Regex) : Option (Option RStr × Scanner) :=
  match dropBytes sc.string sc.pos with
  | none => none
  | some rest =>
    match re rest with
    | none => some (none, { sc with last_match := none })
    | some caps =>
      match Captures.pos caps 0 with
      | some (_, endIdx) =>
        let newPos := sc.pos + endIdx
        match sliceBytes sc.string sc.pos newPos with
        | some ret => some (some ret, { sc with pos := newPos, last_match := some caps })
        | none => none
      | none => none

/-- `StringScanner::check`: match the pattern against the remaining
suffix and cache the outcome, never moving the cursor. -/
def Scanner.check (sc : Scanner) (re : Regex) : Option (Bool × Scanner) :=
  match dropBytes sc.string sc.pos with
  | none => none
  | some rest =>
    match re rest with
    | some cs => some (true, { sc with last_match := some cs })
    | none => some (false, { sc with last_match := none })

/-- `StringScanner::captures`. -/
def Scanner.captures (sc : Scanner) : Option Captures := sc.last_match

/-- `StringScanner::match_at`. -/
def Scanner.match_at (sc : Scanner) (i : Nat) : Option RStr :=
  match sc.captures with
  | some caps => Captures.at caps i
  | none => none

/-- The position invariant: the cursor never passes the byte length of
the text (offsets are `usize`, so nonnegativity is inherent). -/
def Scanner.Inv (sc : Scanner) : Prop := sc.pos ≤ RStr.len sc.string

theorem dropBytes_zero (s : RStr) : dropBytes s 0 = some s := by
  cases s <;> rfl

theorem takeBytes_len : ∀ (s : RStr) (n : Nat) (t : RStr),
    takeBytes s n = some t → RStr.len t = n := by
  intro s
  induction s with
  | nil =>
    intro n t h
    cases n with
    | zero =>
      have ht : [] = t := Option.some.inj h
      subst ht; rfl
    | succ m => simp [takeBytes] at h
  | cons c cs ih =>
    intro n t h
    cases n with
    | zero =>
      have ht : [] = t := Option.some.inj h
      subst ht; rfl
    | succ m =>
      simp only [takeBytes] at h
      split at h
      · next hc =>
        rcases Option.map_eq_some'.mp h with ⟨t', ht', rfl⟩
        have := ih _ _ ht'
        simp only [RStr.len, RStr.bytes, List.flatten_cons, List.length_append] at this ⊢
        omega
      · exact absurd h (by simp)

theorem takeBytes_le : ∀ (s : RStr) (n : Nat) (t : RStr),
    takeBytes s n = some t → n ≤ RStr.len s := by
  intro s
  induction s with
  | nil =>
    intro n t h
    cases n with
    | zero => exact Nat.zero_le _
    | succ m => simp [takeBytes] at h
  | cons c cs ih =>
    intro n t h
    cases n with
    | zero => exact Nat.zero_le _
    | succ m =>
      simp only [takeBytes] at h
      split at h
      · next hc =>
        rcases Option.map_eq_some'.mp h with ⟨t', ht', rfl⟩
        have := ih _ _ ht'
        simp only [RStr.len, RStr.bytes, List.flatten_cons, List.length_append] at this ⊢
        omega
      · exact absurd h (by simp)

theorem dropBytes_len : ∀ (s : RStr) (n : Nat) (t : RStr),
    dropBytes s n = some t → n + RStr.len t = RStr.len s := by
  intro s
  induction s with
  | nil =>
    intro n t h
    cases n with
    | zero => simp [dropBytes] at h; simp [← h]
    | succ m => simp [dropBytes] at h
  | cons c cs ih =>
    intro n t h
    cases n with
    | zero => simp [dropBytes] at h; simp [← h]
    | succ m =>
      simp only [dropBytes] at h
      split at h
      · next hc =>
        have := ih _ _ h
        simp only [RStr.len, RStr.bytes, List.flatten_cons, List.length_append] at this ⊢
        omega
      · exact absurd h (by simp)

theorem take_len_le (r : RStr) (k : Nat) : RStr.len (r.take k) ≤ RStr.len r := by
  conv_rhs => rw [← List.take_append_drop k r]
  simp only [RStr.len, RStr.bytes, List.flatten_append, List.length_append]
  exact Nat.le_add_right _ _

theorem scan_some_inv {sc sc' : Scanner} {re : Regex} {ret : RStr}
    (h : sc.scan re = some (some ret, sc')) :
    ∃ rest caps a endIdx,
      dropBytes sc.string sc.pos = some rest ∧ re rest = some caps ∧
      Captures.pos caps 0 = some (a, endIdx) ∧
      sliceBytes sc.string sc.pos (sc.pos + endIdx) = some ret ∧
      sc' = { sc with pos := sc.pos + endIdx, last_match := some caps } := by
  simp only [Scanner.scan] at h
  split at h
  · exact absurd h (by simp)
  next rest hrest =>
    split at h
    · simp only [Option.some.injEq, Prod.mk.injEq] at h
      exact absurd h.1 (by simp)
    next caps hre =>
      split at h
      next a endIdx hp =>
        split at h
        next ret0 hsl =>
          simp only [Option.some.injEq, Prod.mk.injEq] at h
          obtain ⟨h1, h2⟩ := h
          subst h1
          exact ⟨rest, caps, a, endIdx, hrest, hre, hp, hsl, h2.symm⟩
        · exact absurd h (by simp)
      · exact absurd h (by simp)

theorem scan_fail_inv {sc sc' : Scanner} {re : Regex}
    (h : sc.scan re = some (none, sc')) :
    ∃ rest, dropBytes sc.string sc.pos = some rest ∧ re rest = none ∧
      sc' = { sc with last_match := none } := by
  simp only [Scanner.scan] at h
  split at h
  · exact absurd h (by simp)
  next rest hrest =>
    split at h
    next hre =>
      simp only [Option.some.injEq, Prod.mk.injEq] at h
      exact ⟨rest, hrest, hre, h.2.symm⟩
    next caps hre =>
      split at h
      next a endIdx hp =>
        split at h
        next ret0 hsl =>
          simp only [Option.some.injEq, Prod.mk.injEq] at h
          exact absurd h.1 (by simp)
        · exact absurd h (by simp)
      · exact absurd h (by simp)

theorem check_inv {sc sc' : Scanner} {re : Regex} {b : Bool}
    (h : sc.check re = some (b, sc')) :
    ∃ rest, dropBytes sc.string sc.pos = some rest ∧
      ((∃ caps, re rest = some caps ∧ b = true ∧
          sc' = { sc with last_match := some caps }) ∨
        (re rest = none ∧ b = false ∧ sc' = { sc with last_match := none })) := by
  simp only [Scanner.check] at h
  split at h
  · exact absurd h (by simp)
  next rest hrest =>
    split at h
    next caps hre =>
      simp only [Option.some.injEq, Prod.mk.injEq] at h
      exact ⟨rest, hrest, Or.inl ⟨caps, hre, h.1.symm, h.2.symm⟩⟩
    next hre =>
      simp only [Option.some.injEq, Prod.mk.injEq] at h
      exact ⟨rest, hrest, Or.inr ⟨hre, h.1.symm, h.2.symm⟩⟩

/-- The string "ab". -/
def abR : RStr := [[97], [98]]

/-- The string "abcdef". -/
def abcdefR : RStr := [[97], [98], [99], [100], [101], [102]]

/-- A concrete instance of the regex capability: the anchored literal
pattern matching exactly the two bytes "ab" at the start of the slice. -/
def reAB : Regex := fun s =>
  if takeBytes s 2 = some [[97], [98]] then some { searched := s, groups := [some (0, 2)] }
  else none

/-- A concrete instance of the regex capability that never matches. -/
def reNone : Regex := fun _ => none

/-- A concrete instance of the regex capability matching the empty string
at the start of any slice. -/
def reEmpty : Regex := fun s => some { searched := s, groups := [some (0, 0)] }

/-- The capture set `reAB` reports on the slice "ab". -/
def capsAB : Captures := { searched := abR, groups := [some (0, 2)] }

/-- The scanner state after scanning "ab" off the text "ab". -/
def scAB : Scanner := { string := abR, pos := 2, last_match := some capsAB }

theorem reAB_wf : Regex.WF reAB := by
  intro s caps h
  unfold reAB at h
  by_cases ht : takeBytes s 2 = some [[97], [98]]
  · rw [if_pos ht] at h
    cases h
    refine ⟨rfl, 0, 2, rfl, ?_⟩
    simp [sliceBytes, dropBytes_zero, ht]
  · rw [if_neg ht] at h
    cases h

theorem reAB_anchored : Regex.Anchored reAB := by
  intro s caps a b h hp
  unfold reAB at h
  by_cases ht : takeBytes s 2 = some [[97], [98]]
  · rw [if_pos ht] at h
    cases h
    cases hp
    rfl
  · rw [if_neg ht] at h
    cases h

/-- Claim C5: for every scanner and every `p`, `set_pos(p)` succeeds with
`get_pos() = p` afterward when `p ≤ length(text)`, and fails leaving
`get_pos()` unchanged when `p > length(text)`. -/
theorem set_pos_spec (sc : Scanner) (p : Nat) :
    (p ≤ RStr.len sc.string → (sc.set_pos p).1 = true ∧ (sc.set_pos p).2.get_pos = p) ∧
    (RStr.len sc.string < p →
      (sc.set_pos p).1 = false ∧ (sc.set_pos p).2.get_pos = sc.get_pos) := by
  constructor
  · intro hp
    simp [Scanner.set_pos, Scanner.endPos, Scanner.get_pos, Nat.not_lt.mpr hp]
  · intro hp
    simp [Scanner.set_pos, Scanner.endPos, Scanner.get_pos, hp]

theorem set_pos_spec_witness :
    ((Scanner.new abR).set_pos 1).1 = true ∧ ((Scanner.new abR).set_pos 1).2.get_pos = 1 :=
  (set_pos_spec (Scanner.new abR) 1).1 (by decide)

/-- Claim C10: `scan` has no end-of-string guard: at the end of "ab", an
empty-matching pattern still succeeds, `scan` returns the empty string,
and the position stays 2 (only the match cache changes). -/
theorem scan_succeeds_at_eos :
    ((Scanner.new abR).terminate.is_eos = true) ∧
    ((Scanner.new abR).terminate.scan reEmpty
      = some (some [], { string := abR, pos := 2,
                         last_match := some { searched := [], groups := [some (0, 0)] } })) := by
  decide

/-- Claim C3 is refuted by the code: at text "abcdef" and position 1
(reached through `set_pos`), `peek_bytes(1)` returns "c" — the code
indexes the already-offset `rest()` slice by the absolute position a
second time — while the 1-byte substring starting at the current
position is "b". -/
theorem peek_bytes_wrong_substring :
    ((((Scanner.new abcdefR).set_pos 1).2.peek_bytes 1) = some (some [[99]])) ∧
    sliceBytes abcdefR 1 2 = some [[98]] := by decide

/-- Claim C4 is refuted by the code: at text "abcdef" and position 1,
`get_byte()` returns byte 99 ("c", the byte at offset 2 of the text,
found at offset 1 of the already-offset `rest()` slice) and advances to
position 2, while the byte located at the current position is 98 ("b"). -/
theorem get_byte_wrong_byte :
    (((Scanner.new abcdefR).set_pos 1).2.get_byte
      = some (some 99, { string := abcdefR, pos := 2, last_match := none })) ∧
    (RStr.bytes abcdefR).get? 1 = some 98 := by decide

/-- Claim C9 is refuted by the code: at text "ab" and position 1 (a
reachable, non-end-of-string state), `get_byte()` slices the one-byte
`rest()` suffix out of bounds and aborts (modelled by the outer `none`)
instead of returning a value or signalling end-of-string. -/
theorem get_byte_aborts_midstring :
    (((Scanner.new abR).set_pos 1).2.is_eos = false) ∧
    (((Scanner.new abR).set_pos 1).2.get_byte = none) := by decide

theorem sliceBytes_zero (s : RStr) (b : Nat) : sliceBytes s 0 b = takeBytes s b := by
  simp [sliceBytes, dropBytes_zero]

theorem sliceBytes_add {s rest : RStr} {p n : Nat}
    (hrest : dropBytes s p = some rest) :
    sliceBytes s p (p + n) = takeBytes rest n := by
  simp [sliceBytes, hrest]

theorem sliceBytes_some_inv {s : RStr} {a b : Nat} {t : RStr}
    (h : sliceBytes s a b = some t) :
    a ≤ b ∧ ∃ u, dropBytes s a = some u ∧ takeBytes u (b - a) = some t := by
  unfold sliceBytes at h
  by_cases hab : b < a
  · rw [if_pos hab] at h; cases h
  · rw [if_neg hab] at h
    exact ⟨Nat.le_of_not_lt hab, Option.bind_eq_some.mp h⟩

theorem rest_some_inv {sc : Scanner} {r : RStr} (h : sc.rest = some (some r)) :
    dropBytes sc.string sc.pos = some r := by
  unfold Scanner.rest at h
  by_cases he : sc.is_eos = true
  · rw [if_pos he] at h; cases h
  · rw [if_neg he] at h
    cases hd : dropBytes sc.string sc.pos with
    | none => rw [hd] at h; cases h
    | some rr => rw [hd] at h; cases h; rfl

/-- Claim C1: under the spec's regex-capability contract (group 0 is a
valid anchored range of the searched slice), a successful `scan` ends at
the old position plus the byte length of the overall (group-0) match,
and `match_at(0)` afterwards equals the substring `scan` returned. -/
theorem scan_success_advances (sc sc' : Scanner) (re : Regex) (ret : RStr)
    (hWF : Regex.WF re) (hA : Regex.Anchored re)
    (h : sc.scan re = some (some ret, sc')) :
    sc'.match_at 0 = some ret ∧ sc'.pos = sc.pos + RStr.len ret := by
  obtain ⟨rest, caps, a, endIdx, hrest, hre, hp, hsl, rfl⟩ := scan_some_inv h
  obtain ⟨hsearch, a', b', hp', hvalid⟩ := hWF rest caps hre
  have ha : a = 0 := hA rest caps a endIdx hre hp
  subst ha
  have hab : (a', b') = (0, endIdx) := Option.some.inj (hp'.symm.trans hp)
  cases hab
  have htk : takeBytes rest endIdx = some ret := (sliceBytes_add hrest).symm.trans hsl
  constructor
  · simp only [Scanner.match_at, Scanner.captures, Captures.at, hp, hsearch,
      sliceBytes_zero]
    exact htk
  · have hlen : RStr.len ret = endIdx := takeBytes_len rest endIdx ret htk
    simp [hlen]

theorem scan_success_advances_witness :
    scAB.match_at 0 = some abR ∧ scAB.pos = (Scanner.new abR).pos + RStr.len abR :=
  scan_success_advances (Scanner.new abR) scAB reAB abR reAB_wf reAB_anchored (by decide)

/-- Claim C2: under the spec's regex-capability contract, `scan`
succeeds exactly when the pattern matches the remaining text (the
suffix from the current position) with the overall match starting at
offset 0 of that suffix; a match only at a later offset is excluded by
the anchoring contract, so such a pattern fails. -/
theorem scan_succeeds_iff_anchored (sc : Scanner) (re : Regex) (rest : RStr)
    (hWF : Regex.WF re) (hA : Regex.Anchored re)
    (hrest : dropBytes sc.string sc.pos = some rest) :
    (∃ ret sc', sc.scan re = some (some ret, sc')) ↔
      (∃ caps b, re rest = some caps ∧ Captures.pos caps 0 = some (0, b)) := by
  constructor
  · rintro ⟨ret, sc', h⟩
    obtain ⟨rest', caps, a, endIdx, hrest', hre, hp, hsl, rfl⟩ := scan_some_inv h
    rw [hrest] at hrest'
    cases hrest'
    have ha : a = 0 := hA rest caps a endIdx hre hp
    subst ha
    exact ⟨caps, endIdx, hre, hp⟩
  · rintro ⟨caps, b, hre, hp⟩
    obtain ⟨hsearch, a', b', hp', hvalid⟩ := hWF rest caps hre
    have hab : (a', b') = (0, b) := Option.some.inj (hp'.symm.trans hp)
    cases hab
    rw [sliceBytes_zero] at hvalid
    obtain ⟨m, hm⟩ := Option.isSome_iff_exists.mp hvalid
    refine ⟨m, { sc with pos := sc.pos + b, last_match := some caps }, ?_⟩
    simp only [Scanner.scan, hrest, hre, hp, sliceBytes_add hrest, hm]

theorem scan_succeeds_iff_anchored_witness :
    (∃ ret sc', (Scanner.new abR).scan reAB = some (some ret, sc')) ↔
      (∃ caps b, reAB abR = some caps ∧ Captures.pos caps 0 = some (0, b)) :=
  scan_succeeds_iff_anchored (Scanner.new abR) reAB abR reAB_wf reAB_anchored (by decide)

/-- Claim C6: when a completed `scan` or `check` attempt fails, the
cached match is cleared (`captures()` returns no value), the position
and text are unchanged, and the failure is the call's explicit
no-value/false result rather than an exception. -/
theorem scan_check_failure_frame (sc : Scanner) (re : Regex) :
    (∀ sc', sc.scan re = some (none, sc') →
      sc'.pos = sc.pos ∧ sc'.captures = none ∧ sc'.string = sc.string) ∧
    (∀ sc', sc.check re = some (false, sc') →
      sc'.pos = sc.pos ∧ sc'.captures = none ∧ sc'.string = sc.string) := by
  constructor
  · intro sc' h
    obtain ⟨rest, hrest, hre, rfl⟩ := scan_fail_inv h
    exact ⟨rfl, rfl, rfl⟩
  · intro sc' h
    obtain ⟨rest, hrest, hdisj⟩ := check_inv h
    rcases hdisj with ⟨caps, hre, hb, rfl⟩ | ⟨hre, hb, rfl⟩
    · exact absurd hb (by simp)
    · exact ⟨rfl, rfl, rfl⟩

theorem scan_check_failure_frame_witness :
    (Scanner.new abR).pos = (Scanner.new abR).pos ∧
      (Scanner.new abR).captures = none ∧
      (Scanner.new abR).string = (Scanner.new abR).string :=
  (scan_check_failure_frame (Scanner.new abR) reNone).1 (Scanner.new abR) (by decide)

/-- Claim C7: a completed `check` never changes the position, whatever
the outcome, yet it replaces the cached match on both outcomes exactly
as `scan` does: captures cached on success, cleared on failure, and the
cache agrees with what a completed `scan` of the same state and pattern
leaves behind. -/
theorem check_pos_unchanged (sc sc' : Scanner) (re : Regex) (b : Bool)
    (h : sc.check re = some (b, sc')) :
    sc'.pos = sc.pos ∧ sc'.string = sc.string ∧
    (b = true → ∃ rest caps, dropBytes sc.string sc.pos = some rest ∧
        re rest = some caps ∧ sc'.last_match = some caps) ∧
    (b = false → sc'.last_match = none) ∧
    (∀ r sc2, sc.scan re = some (r, sc2) → sc2.last_match = sc'.last_match) := by
  obtain ⟨rest, hrest, hdisj⟩ := check_inv h
  rcases hdisj with ⟨caps, hre, hb, rfl⟩ | ⟨hre, hb, rfl⟩
  · subst hb
    refine ⟨rfl, rfl, fun _ => ⟨rest, caps, hrest, hre, rfl⟩,
      fun hcon => absurd hcon (by simp), ?_⟩
    intro r sc2 hs
    cases r with
    | none =>
      obtain ⟨rest', hrest', hre', rfl⟩ := scan_fail_inv hs
      rw [hrest] at hrest'
      cases hrest'
      rw [hre] at hre'
      cases hre'
    | some ret =>
      obtain ⟨rest', caps', a, e, hrest', hre', hp', hsl', rfl⟩ := scan_some_inv hs
      rw [hrest] at hrest'
      cases hrest'
      rw [hre] at hre'
      cases hre'
      rfl
  · subst hb
    refine ⟨rfl, rfl, fun hcon => absurd hcon (by simp), fun _ => rfl, ?_⟩
    intro r sc2 hs
    cases r with
    | none =>
      obtain ⟨rest', hrest', hre', rfl⟩ := scan_fail_inv hs
      rfl
    | some ret =>
      obtain ⟨rest', caps', a, e, hrest', hre', hp', hsl', rfl⟩ := scan_some_inv hs
      rw [hrest] at hrest'
      cases hrest'
      rw [hre] at hre'
      cases hre'

theorem check_pos_unchanged_witness :
    ({ string := abR, pos := 0, last_match := some capsAB } : Scanner).pos
      = (Scanner.new abR).pos :=
  (check_pos_unchanged (Scanner.new abR)
    { string := abR, pos := 0, last_match := some capsAB } reAB true (by decide)).1

/-- Claim C8: the invariant `0 ≤ position ≤ length(text)` holds after
`new` and is preserved by every completed state-changing operation
(`set_pos`, `terminate`, `get_byte`, `get_char`, `scan`, `check`); the
read-only queries return no state, so no reachable state places the
position past the text's byte length (the lower bound is inherent in
the `Nat`/`usize` embedding). -/
theorem position_invariant_preserved :
    (∀ s : RStr, (Scanner.new s).Inv) ∧
    (∀ (sc : Scanner) (p : Nat), sc.Inv → ((sc.set_pos p).2).Inv) ∧
    (∀ sc : Scanner, sc.terminate.Inv) ∧
    (∀ (sc sc' : Scanner) (r : Option Byte),
      sc.Inv → sc.get_byte = some (r, sc') → sc'.Inv) ∧
    (∀ (sc sc' : Scanner) (r : Option RStr),
      sc.Inv → sc.get_char = some (r, sc') → sc'.Inv) ∧
    (∀ (sc sc' : Scanner) (re : Regex) (r : Option RStr),
      sc.Inv → sc.scan re = some (r, sc') → sc'.Inv) ∧
    (∀ (sc sc' : Scanner) (re : Regex) (b : Bool),
      sc.Inv → sc.check re = some (b, sc') → sc'.Inv) := by
  refine ⟨fun s => Nat.zero_le _, ?_, fun sc => Nat.le_refl _, ?_, ?_, ?_, ?_⟩
  · intro sc p h
    unfold Scanner.set_pos
    by_cases hp : sc.endPos < p
    · rw [if_pos hp]; exact h
    · rw [if_neg hp]
      exact Nat.le_of_not_lt hp
  · intro sc sc' r hinv h
    unfold Scanner.get_byte at h
    by_cases he : sc.is_eos = true
    · rw [if_pos he] at h
      cases h
      exact hinv
    · rw [if_neg he] at h
      cases hrr : sc.rest with
      | none => simp only [hrr] at h; cases h
      | some o =>
        cases o with
        | none => simp only [hrr] at h; cases h
        | some rr =>
          simp only [hrr] at h
          cases hsl : sliceBytes rr sc.pos (sc.pos + 1) with
          | none => simp only [hsl] at h; cases h
          | some bs =>
            simp only [hsl] at h
            cases hbs : RStr.bytes bs with
            | nil => simp only [hbs] at h; cases h
            | cons b0 bs0 =>
              simp only [hbs, Option.some.injEq, Prod.mk.injEq] at h
              obtain ⟨h1, h2⟩ := h
              subst h2
              have hd := rest_some_inv hrr
              have h1 := dropBytes_len _ _ _ hd
              obtain ⟨hle, t, hdt, htk⟩ := sliceBytes_some_inv hsl
              have h2 := dropBytes_len _ _ _ hdt
              have h3 := takeBytes_le _ _ _ htk
              show sc.pos + 1 ≤ RStr.len sc.string
              omega
  · intro sc sc' r hinv h
    unfold Scanner.get_char at h
    by_cases he : sc.is_eos = true
    · rw [if_pos he] at h
      cases h
      exact hinv
    · rw [if_neg he] at h
      cases hd : dropBytes sc.string sc.pos with
      | none => simp only [hd] at h; cases h
      | some rr =>
        simp only [hd] at h
        by_cases hl : rr.length < 1
        · rw [if_pos hl] at h; cases h
        · simp only [if_neg hl, Option.some.injEq, Prod.mk.injEq] at h
          obtain ⟨h1, h2⟩ := h
          subst h2
          have h1 := dropBytes_len _ _ _ hd
          have h2 := take_len_le rr 1
          show sc.pos + RStr.len (List.take 1 rr) ≤ RStr.len sc.string
          omega
  · intro sc sc' re r hinv h
    cases r with
    | none =>
      obtain ⟨rest, hrest, hre, rfl⟩ := scan_fail_inv h
      exact hinv
    | some ret =>
      obtain ⟨rest, caps, a, e, hrest, hre, hp, hsl, rfl⟩ := scan_some_inv h
      obtain ⟨hle, t, hdt, htk⟩ := sliceBytes_some_inv hsl
      rw [hrest] at hdt
      cases hdt
      have h1 := dropBytes_len _ _ _ hrest
      have h2 := takeBytes_le _ _ _ htk
      show sc.pos + e ≤ RStr.len sc.string
      omega
  · intro sc sc' re b hinv h
    obtain ⟨rest, hrest, hdisj⟩ := check_inv h
    rcases hdisj with ⟨caps, hre, hb, rfl⟩ | ⟨hre, hb, rfl⟩ <;> exact hinv

theorem position_invariant_preserved_witness :
    Scanner.Inv ((Scanner.new abR).set_pos 1).2 :=
  position_invariant_preserved.2.1 (Scanner.new abR) 1
    (position_invariant_preserved.1 abR)
